import Mathlib

/-!
Verification of the BookFriend retrieval and chunking pipeline.

Texts are modelled as `List Char` (Python strings).  Pure text transforms
(`smart_chunking`, the chapter splitter of `process_and_ingest_pdf`) are
translated directly from `ingest.py`.  The vector store is modelled as a
list of rows; the embedding model and the SQL distance operator `<=>` are
abstracted by a per-row rational cosine distance, so the SQL of
`semantic_search` (filter by book and chapter ceiling, order by distance,
limit) becomes filter / sort / take.  The `/v1/query` endpoint of `api.py`
after the book lookup is modelled by `query_book`, with the answer
generator as an opaque function argument.
-/

namespace BookFriend

/-- Whitespace class used by the Python regexes `\s` and by `str.strip`
(ASCII portion). -/
def isSpace (c : Char) : Bool :=
  c = ' ' || c = '\t' || c = '\n' || c = '\r' || c = '\x0b' || c = '\x0c'

/-- Python `str.strip()`: remove leading and trailing whitespace. -/
def strip (l : List Char) : List Char :=
  ((l.dropWhile isSpace).reverse.dropWhile isSpace).reverse

/-- A sentence-ending punctuation character, from the lookbehind
`(?<=[.!?])` in `smart_chunking`. -/
def isSentEnd (c : Char) : Bool :=
  c = '.' || c = '!' || c = '?'

/-- Python `re.split(r'(?<=[.!?])\s+', text)` scanning: `acc` holds the
characters of the current token in reverse; a maximal whitespace run
immediately preceded by `.`, `!` or `?` is a separator.  `fuel` bounds the
recursion; every step consumes at least one input character, so starting
with `fuel = text.length` the first case is never reached. -/
def sentSplitF : Nat → List Char → List Char → List (List Char)
  | 0, acc, l => [acc.reverse ++ l]
  | _ + 1, acc, [] => [acc.reverse]
  | fuel + 1, acc, c :: rest =>
    if (match acc with | p :: _ => isSentEnd p | [] => false) && isSpace c then
      acc.reverse :: sentSplitF fuel [] (rest.dropWhile isSpace)
    else
      sentSplitF fuel (c :: acc) rest

/-- `sentences = re.split(r'(?<=[.!?])\s+', text)` (line 8 of `ingest.py`). -/
def sentSplit (text : List Char) : List (List Char) :=
  sentSplitF text.length [] text

/-- The sentence sequence of a text as `smart_chunking` sees it: split on
sentence boundaries, strip each token, drop the empty ones (lines 8 and
16–17 of `ingest.py`). -/
def cleanSents (text : List Char) : List (List Char) :=
  ((sentSplit text).map strip).filter (fun s => !s.isEmpty)

/-- `current_len()` of `smart_chunking`: total character count of the
buffered sentences (joining spaces not counted). -/
def sumLen (l : List (List Char)) : Nat :=
  (l.map List.length).sum

/-- Python `" ".join(current)`. -/
def joinSp (l : List (List Char)) : List Char :=
  List.intercalate [' '] l

/-- Python `current[-n:]` for `n > 0`: the last `n` elements. -/
def takeLast (n : Nat) (l : List (List Char)) : List (List Char) :=
  l.drop (l.length - n)

/-- The overlap seed `current[-overlap_sentences:] if overlap_sentences > 0
else []` (line 21 of `ingest.py`). -/
def seedOf (ov : Nat) (cur : List (List Char)) : List (List Char) :=
  if 0 < ov then takeLast ov cur else []

/-- The eviction loop of `smart_chunking` (lines 23–24): pop sentences from
the front while the buffer plus the incoming sentence would exceed
`chunk_size`. -/
def evict (cs slen : Nat) : List (List Char) → List (List Char)
  | [] => []
  | w :: rest =>
    if cs < sumLen (w :: rest) + slen then evict cs slen rest else w :: rest

/-- One iteration of the `for sentence in sentences` loop of
`smart_chunking`, state `(chunks, current)` with chunks already joined
(exactly as the Python appends `" ".join(current)`). -/
def chunkStep (cs ov : Nat) (st : List (List Char) × List (List Char))
    (sent : List Char) : List (List Char) × List (List Char) :=
  let s := strip sent
  if s.isEmpty then st
  else if cs < sumLen st.2 + s.length then
    (st.1 ++ [joinSp st.2], evict cs s.length (seedOf ov st.2) ++ [s])
  else
    (st.1, st.2 ++ [s])

/-- `smart_chunking(text, chunk_size, overlap_sentences)` from `ingest.py`
lines 6–31. -/
def smart_chunking (text : List Char) (cs ov : Nat) : List (List Char) :=
  let st := (sentSplit text).foldl (chunkStep cs ov) ([], [])
  if st.2.isEmpty then st.1 else st.1 ++ [joinSp st.2]

/-- Variant of `chunkStep` that keeps each emitted chunk as its list of
sentences instead of joining it. -/
def chunkStepS (cs ov : Nat) (st : List (List (List Char)) × List (List Char))
    (sent : List Char) : List (List (List Char)) × List (List Char) :=
  let s := strip sent
  if s.isEmpty then st
  else if cs < sumLen st.2 + s.length then
    (st.1 ++ [st.2], evict cs s.length (seedOf ov st.2) ++ [s])
  else
    (st.1, st.2 ++ [s])

/-- `smart_chunking` with each chunk kept as its sentence list. -/
def chunkSentLists (text : List Char) (cs ov : Nat) : List (List (List Char)) :=
  let st := (sentSplit text).foldl (chunkStepS cs ov) ([], [])
  if st.2.isEmpty then st.1 else st.1 ++ [st.2]

/-- `chunkStepS` on an already stripped, non-empty sentence. -/
def coreStep (cs ov : Nat) (st : List (List (List Char)) × List (List Char))
    (s : List Char) : List (List (List Char)) × List (List Char) :=
  if cs < sumLen st.2 + s.length then
    (st.1 ++ [st.2], evict cs s.length (seedOf ov st.2) ++ [s])
  else
    (st.1, st.2 ++ [s])

/-- Does the 7-character word starting here spell `Chapter`, case-insensitively
(flag `re.IGNORECASE` on the ASCII literal)? -/
def isChapterWord (c1 c2 c3 c4 c5 c6 c7 : Char) : Bool :=
  (c1 = 'C' || c1 = 'c') && (c2 = 'H' || c2 = 'h') && (c3 = 'A' || c3 = 'a') &&
  (c4 = 'P' || c4 = 'p') && (c5 = 'T' || c5 = 't') && (c6 = 'E' || c6 = 'e') &&
  (c7 = 'R' || c7 = 'r')

/-- Match of the pattern `Chapter\s+\d+` at the head of `l`: the literal word,
a maximal non-empty whitespace run, a maximal non-empty digit run.  Returns
the matched characters and the remainder. -/
def matchChapterAt (l : List Char) : Option (List Char × List Char) :=
  match l with
  | c1 :: c2 :: c3 :: c4 :: c5 :: c6 :: c7 :: rest =>
    if isChapterWord c1 c2 c3 c4 c5 c6 c7 then
      let ws := rest.takeWhile isSpace
      let rest2 := rest.dropWhile isSpace
      if ws.isEmpty then none
      else
        let ds := rest2.takeWhile Char.isDigit
        let rest3 := rest2.dropWhile Char.isDigit
        if ds.isEmpty then none
        else some (c1 :: c2 :: c3 :: c4 :: c5 :: c6 :: c7 :: (ws ++ ds), rest3)
    else none
  | _ => none

theorem takeWhile_length_add_dropWhile_length (p : Char → Bool) (l : List Char) :
    (l.takeWhile p).length + (l.dropWhile p).length = l.length := by
  conv_rhs => rw [← List.takeWhile_append_dropWhile (p := p) (l := l)]
  exact (List.length_append _ _).symm

theorem matchChapterAt_rest_lt {l m r : List Char}
    (h : matchChapterAt l = some (m, r)) : r.length < l.length := by
  match l with
  | c1 :: c2 :: c3 :: c4 :: c5 :: c6 :: c7 :: rest =>
    simp only [matchChapterAt] at h
    split at h
    · split at h
      · exact absurd h (by simp)
      · split at h
        · exact absurd h (by simp)
        · rename_i hws hds
          simp only [Option.some.injEq, Prod.mk.injEq] at h
          have hr : r = (rest.dropWhile isSpace).dropWhile Char.isDigit := h.2.symm
          have h1 := takeWhile_length_add_dropWhile_length isSpace rest
          have h2 := takeWhile_length_add_dropWhile_length Char.isDigit
            (rest.dropWhile isSpace)
          have hds' : 0 < ((rest.dropWhile isSpace).takeWhile Char.isDigit).length := by
            cases hne : (rest.dropWhile isSpace).takeWhile Char.isDigit with
            | nil => rw [hne] at hds; simp at hds
            | cons a t => simp [hne]
          subst hr
          simp only [List.length_cons]
          omega
    · exact absurd h (by simp)
  | [] => simp [matchChapterAt] at h
  | [c1] => simp [matchChapterAt] at h
  | [c1, c2] => simp [matchChapterAt] at h
  | [c1, c2, c3] => simp [matchChapterAt] at h
  | [c1, c2, c3, c4] => simp [matchChapterAt] at h
  | [c1, c2, c3, c4, c5] => simp [matchChapterAt] at h
  | [c1, c2, c3, c4, c5, c6] => simp [matchChapterAt] at h

/-- Scan of `re.split(r'(Chapter\s+\d+)', full_text, flags=re.IGNORECASE)`:
with one capturing group, the result alternates text pieces and matched
headings.  `acc` holds the current text piece in reverse.  `fuel` bounds
the recursion; every step consumes at least one input character
(a match consumes at least nine), so `fuel = text.length` never runs
out. -/
def scanSplitF : Nat → List Char → List Char → List (List Char)
  | 0, acc, l => [acc.reverse ++ l]
  | fuel + 1, acc, l =>
    match matchChapterAt l with
    | some (m, rest) => acc.reverse :: m :: scanSplitF fuel [] rest
    | none =>
      match l with
      | [] => [acc.reverse]
      | c :: rest => scanSplitF fuel (c :: acc) rest

/-- `raw_chapters` of `process_and_ingest_pdf` (line 43 of `ingest.py`). -/
def reSplitChapter (text : List Char) : List (List Char) :=
  scanSplitF text.length [] text

/-- The index pairs visited by `for i in range(1, len(raw_chapters), 2)`:
`(raw[i], raw[i+1])`, i.e. (heading, body) pairs. -/
def pairUp : List (List Char) → List (List Char × List Char)
  | a :: b :: rest => (a, b) :: pairUp rest
  | _ => []

/-- Decimal value of a digit string, as Python `int` parses it. -/
def natOfDigits (l : List Char) : Nat :=
  l.foldl (fun n c => 10 * n + (c.toNat - 48)) 0

/-- First maximal digit run in a string, as found by `re.search(r'\d+', s)`. -/
def firstDigitRun : List Char → List Char
  | [] => []
  | c :: rest =>
    if c.isDigit then c :: rest.takeWhile Char.isDigit else firstDigitRun rest

/-- Chapter number parsed from a heading:
`int(re.search(r'\d+', chapter_title).group())`, with the `except` branch
assigning 0 when no digit run exists (lines 57–60 of `ingest.py`). -/
def chapNumOf (title : List Char) : Nat :=
  match firstDigitRun title with
  | [] => 0
  | ds => natOfDigits ds

/-- The minimum chapter-body length from line 53 of `ingest.py`. -/
def minChapterLen : Nat := 500

/-- The chapter segmentation performed by `process_and_ingest_pdf` (lines
41–70): with at least one heading, keep each (heading, body) pair whose
stripped body reaches the threshold; with no heading, the whole text is
chapter 0. -/
def chapterSegments (text : List Char) : List (Nat × List Char) :=
  let parts := reSplitChapter text
  if 1 < parts.length then
    (pairUp (parts.drop 1)).filterMap (fun p =>
      let content := strip p.2
      if content.length < minChapterLen then none
      else some (chapNumOf (strip p.1), content))
  else
    [(0, text)]

/-- All chunk/chapter pairs produced by `process_and_ingest_pdf`
(`all_chunks` zipped with `all_chapters`). -/
def ingestChunks (text : List Char) : List (List Char × Nat) :=
  (chapterSegments text).flatMap
    (fun seg => (smart_chunking seg.2 800 2).map (fun c => (c, seg.1)))

/-- `process_and_ingest_pdf` on the extracted text: raises `ValueError` when
no chunks were produced, otherwise upserts the chunk/chapter pairs. -/
def process_and_ingest_text (text : List Char) :
    Except String (List (List Char × Nat)) :=
  let all := ingestChunks text
  if all.isEmpty then
    Except.error "No text could be extracted or chunked from the PDF."
  else
    Except.ok all

/-- A row of the `book_chunks` table.  The stored embedding and the query
embedding are abstracted by `dist`, the value of
`embedding <=> CAST(:embedding AS vector)` for the query at hand. -/
structure ChunkRow where
  book_id : String
  chapter_num : Int
  chunk_text : List Char
  dist : ℚ
deriving DecidableEq, Repr

/-- Insertion step of the sort modelling SQL `ORDER BY` (ascending). -/
def insertByLe (le : ChunkRow → ChunkRow → Bool) (a : ChunkRow) :
    List ChunkRow → List ChunkRow
  | [] => [a]
  | b :: rest => if le a b then a :: b :: rest else b :: insertByLe le a rest

/-- Sort modelling SQL `ORDER BY embedding <=> :embedding` (ascending
distance; SQL leaves ties to the backing store, any stable order works for
the properties proved here). -/
def sortByLe (le : ChunkRow → ChunkRow → Bool) : List ChunkRow → List ChunkRow
  | [] => []
  | a :: rest => insertByLe le a (sortByLe le rest)

/-- Ascending cosine distance, the `ORDER BY` key of `semantic_search`. -/
def rowLe (a b : ChunkRow) : Bool :=
  decide (a.dist ≤ b.dist)

/-- The `f"chapter_{row['chapter_num']}"` source label. -/
def chapterLabel (n : Int) : String :=
  "chapter_" ++ toString n

/-- A `(source label, chunk text, similarity score)` result triple of
`semantic_search`. -/
abbrev SearchResult := String × List Char × ℚ

/-- `semantic_search(query, book_id, chapter_limit, top_k)` from
`semantic_utils.py` lines 53–95: filter rows by `book_id` and, when the
chapter limit is present, by `chapter_num <= chapter_limit`; order by
distance; `LIMIT top_k`; return labelled triples with similarity
`1 - distance`. -/
def semantic_search (table : List ChunkRow) (book_id : String)
    (chapter_limit : Option Int) (top_k : Nat) : List SearchResult :=
  let filtered :=
    match chapter_limit with
    | some c =>
      table.filter (fun r => decide (r.book_id = book_id) && decide (r.chapter_num ≤ c))
    | none => table.filter (fun r => decide (r.book_id = book_id))
  let ordered := sortByLe rowLe filtered
  (ordered.take top_k).map (fun r => (chapterLabel r.chapter_num, r.chunk_text, 1 - r.dist))

/-- The fixed fallback answer of the `/v1/query` endpoint (line 209 of
`api.py`). -/
def fallbackAnswer : List Char :=
  "I couldn\x27t find anything about that in the book up to this chapter.".toList

/-- A row appended to the `messages` table by `database.log_message`. -/
structure LogEntry where
  user_id : String
  book_id : String
  role : String
  content : List Char
  chapter_limit : Int
deriving DecidableEq, Repr

/-- The response of `/v1/query` together with the audit log entries the call
appended. -/
structure QueryOutput where
  answer : List Char
  sources : List String
  logs : List LogEntry
deriving DecidableEq, Repr

/-- `query_book` of `api.py` (lines 178–223) after the book row has been
found: run `semantic_search` with `top_k=3`, on empty retrieval return the
fallback answer with no sources and no log entries (the early return at
line 209 precedes logging), otherwise generate the answer and append the
two audit entries.  `gen` is the opaque answer generator
(`generate_answer` with the query, history and book title closed over). -/
def query_book (table : List ChunkRow) (user_id book_id : String)
    (q : List Char) (chapter_limit : Int)
    (gen : List (List Char) → List Char) : QueryOutput :=
  let raw := semantic_search table book_id (some chapter_limit) 3
  let chunks_text := raw.map (fun t => t.2.1)
  let sources := raw.map (fun t => t.1)
  if chunks_text.isEmpty then
    ⟨fallbackAnswer, [], []⟩
  else
    let answer := gen chunks_text
    ⟨answer, sources,
      [⟨user_id, book_id, "user", q, chapter_limit⟩,
       ⟨user_id, book_id, "bot", answer, chapter_limit⟩]⟩

/-! ### Helper lemmas about the chunker -/

theorem sumLen_append (a b : List (List Char)) :
    sumLen (a ++ b) = sumLen a + sumLen b := by
  simp [sumLen]

theorem sumLen_singleton (s : List Char) : sumLen [s] = s.length := by
  simp [sumLen]

theorem evict_fits (cs slen : Nat) :
    ∀ l, evict cs slen l = [] ∨ sumLen (evict cs slen l) + slen ≤ cs := by
  intro l
  induction l with
  | nil => exact Or.inl rfl
  | cons w rest ih =>
    unfold evict
    by_cases h : cs < sumLen (w :: rest) + slen
    · rw [if_pos h]; exact ih
    · rw [if_neg h]; exact Or.inr (by omega)

theorem evict_suffix (cs slen : Nat) : ∀ l, evict cs slen l <:+ l := by
  intro l
  induction l with
  | nil => exact List.suffix_refl _
  | cons w rest ih =>
    unfold evict
    split
    · exact ih.trans (List.suffix_cons w rest)
    · exact List.suffix_refl _

theorem seedOf_suffix (ov : Nat) (cur : List (List Char)) :
    seedOf ov cur <:+ cur := by
  unfold seedOf
  split
  · exact List.drop_suffix _ _
  · exact List.nil_suffix

/-- Closing step of `smart_chunking`: flush the final non-empty buffer. -/
def finishS (st : List (List (List Char)) × List (List Char)) :
    List (List (List Char)) :=
  if st.2.isEmpty then st.1 else st.1 ++ [st.2]

/-- The chunker run on cleaned sentences starting from buffer `cur`, as a
list of chunk sentence lists. -/
def runFrom (cs ov : Nat) (cur : List (List Char)) (ss : List (List Char)) :
    List (List (List Char)) :=
  finishS (List.foldl (coreStep cs ov) ([], cur) ss)

theorem foldl_chunkStepS_eq_core (cs ov : Nat) (ss : List (List Char)) :
    ∀ st, List.foldl (chunkStepS cs ov) st ss
      = List.foldl (coreStep cs ov) st ((ss.map strip).filter (fun s => !s.isEmpty)) := by
  induction ss with
  | nil => intro st; rfl
  | cons s ss ih =>
    intro st
    by_cases h : (strip s).isEmpty
    · simp only [List.map_cons, List.filter_cons, h, Bool.not_true, List.foldl_cons]
      rw [show chunkStepS cs ov st s = st from by simp [chunkStepS, h]]
      exact ih st
    · simp only [List.map_cons, List.filter_cons, h, Bool.not_false, List.foldl_cons]
      rw [show chunkStepS cs ov st s = coreStep cs ov st (strip s) from by
        simp [chunkStepS, coreStep, h]]
      exact ih _

theorem chunkSentLists_eq_runFrom (text : List Char) (cs ov : Nat) :
    chunkSentLists text cs ov = runFrom cs ov [] (cleanSents text) := by
  unfold chunkSentLists runFrom finishS cleanSents
  rw [foldl_chunkStepS_eq_core]

theorem chunkStep_map (cs ov : Nat) (ch : List (List (List Char)))
    (cur : List (List Char)) (sent : List Char) :
    chunkStep cs ov (ch.map joinSp, cur) sent
      = ((chunkStepS cs ov (ch, cur) sent).1.map joinSp,
         (chunkStepS cs ov (ch, cur) sent).2) := by
  unfold chunkStep chunkStepS
  by_cases h : (strip sent).isEmpty
  · simp [h]
  · by_cases h2 : cs < sumLen cur + (strip sent).length
    · simp [h, h2]
    · simp [h, h2]

theorem smart_chunking_eq_map_join (text : List Char) (cs ov : Nat) :
    smart_chunking text cs ov = (chunkSentLists text cs ov).map joinSp := by
  have key : ∀ (ss : List (List Char)) ch cur,
      List.foldl (chunkStep cs ov) (ch.map joinSp, cur) ss
        = ((List.foldl (chunkStepS cs ov) (ch, cur) ss).1.map joinSp,
           (List.foldl (chunkStepS cs ov) (ch, cur) ss).2) := by
    intro ss
    induction ss with
    | nil => intro ch cur; rfl
    | cons s ss ih =>
      intro ch cur
      simp only [List.foldl_cons, chunkStep_map]
      have := ih (chunkStepS cs ov (ch, cur) s).1 (chunkStepS cs ov (ch, cur) s).2
      simpa using this
  unfold smart_chunking chunkSentLists
  have h0 : ([] : List (List Char)) = (([] : List (List (List Char))).map joinSp) := rfl
  rw [h0, key]
  by_cases h : (List.foldl (chunkStepS cs ov) ([], []) (sentSplit text)).2.isEmpty
  · simp [h]
  · simp [h]

theorem foldl_coreStep_append (cs ov : Nat) (ss : List (List Char)) :
    ∀ ch cur, List.foldl (coreStep cs ov) (ch, cur) ss
      = (ch ++ (List.foldl (coreStep cs ov) ([], cur) ss).1,
         (List.foldl (coreStep cs ov) ([], cur) ss).2) := by
  induction ss with
  | nil => intro ch cur; simp
  | cons s ss ih =>
    intro ch cur
    simp only [List.foldl_cons]
    by_cases h : cs < sumLen cur + s.length
    · rw [show coreStep cs ov (ch, cur) s
          = (ch ++ [cur], evict cs s.length (seedOf ov cur) ++ [s]) from by
        simp [coreStep, h]]
      rw [show coreStep cs ov (([] : List (List (List Char))), cur) s
          = ([cur], evict cs s.length (seedOf ov cur) ++ [s]) from by
        simp [coreStep, h]]
      rw [ih, ih [cur]]
      simp
    · rw [show coreStep cs ov (ch, cur) s = (ch, cur ++ [s]) from by
        simp [coreStep, h]]
      rw [show coreStep cs ov (([] : List (List (List Char))), cur) s
          = ([], cur ++ [s]) from by simp [coreStep, h]]
      rw [ih]

theorem runFrom_cons (cs ov : Nat) (cur : List (List Char)) (s : List Char)
    (ss : List (List Char)) :
    runFrom cs ov cur (s :: ss)
      = if cs < sumLen cur + s.length then
          cur :: runFrom cs ov (evict cs s.length (seedOf ov cur) ++ [s]) ss
        else runFrom cs ov (cur ++ [s]) ss := by
  by_cases h : cs < sumLen cur + s.length
  · rw [if_pos h]
    unfold runFrom
    simp only [List.foldl_cons]
    rw [show coreStep cs ov (([] : List (List (List Char))), cur) s
        = ([cur], evict cs s.length (seedOf ov cur) ++ [s]) from by
      simp [coreStep, h]]
    rw [foldl_coreStep_append]
    unfold finishS
    by_cases h2 : (List.foldl (coreStep cs ov)
        ([], evict cs s.length (seedOf ov cur) ++ [s]) ss).2.isEmpty
    · simp [h2]
    · simp [h2]
  · rw [if_neg h]
    unfold runFrom
    simp only [List.foldl_cons]
    rw [show coreStep cs ov (([] : List (List (List Char))), cur) s
        = ([], cur ++ [s]) from by simp [coreStep, h]]

theorem runFrom_nil (cs ov : Nat) (cur : List (List Char)) :
    runFrom cs ov cur [] = if cur.isEmpty then [] else [cur] := by
  unfold runFrom finishS
  simp

/-- Invariant of the chunk buffer: its sentences total at most `cs`
characters, or it is a single sentence longer than `cs`. -/
def BufOk (cs : Nat) (cur : List (List Char)) : Prop :=
  sumLen cur ≤ cs ∨ ∃ s, cur = [s] ∧ cs < s.length

theorem bufOk_next (cs ov : Nat) (cur : List (List Char)) (s : List Char) :
    BufOk cs (evict cs s.length (seedOf ov cur) ++ [s]) := by
  rcases evict_fits cs s.length (seedOf ov cur) with he | he
  · rw [he]
    by_cases hs : s.length ≤ cs
    · exact Or.inl (by simpa [sumLen_singleton] using hs)
    · exact Or.inr ⟨s, rfl, by omega⟩
  · exact Or.inl (by rw [sumLen_append, sumLen_singleton]; omega)

theorem runFrom_bufOk (cs ov : Nat) :
    ∀ (ss : List (List Char)) cur, BufOk cs cur →
      ∀ ws ∈ runFrom cs ov cur ss, BufOk cs ws := by
  intro ss
  induction ss with
  | nil =>
    intro cur hcur ws hws
    rw [runFrom_nil] at hws
    by_cases h : cur.isEmpty
    · rw [if_pos h] at hws; exact absurd hws (List.not_mem_nil ws)
    · rw [if_neg h] at hws
      rcases List.mem_singleton.mp hws with rfl
      exact hcur
  | cons s ss ih =>
    intro cur hcur ws hws
    rw [runFrom_cons] at hws
    by_cases h : cs < sumLen cur + s.length
    · rw [if_pos h] at hws
      rcases List.mem_cons.mp hws with rfl | hmem
      · exact hcur
      · exact ih _ (bufOk_next cs ov cur s) ws hmem
    · rw [if_neg h] at hws
      refine ih _ ?_ ws hws
      exact Or.inl (by rw [sumLen_append, sumLen_singleton]; omega)

/-- `Recovers prev chunks rest`: each chunk splits as an overlap seed that is
a suffix of its predecessor followed by new sentences, and the new
sentences across all chunks concatenate to `rest`. -/
def Recovers : List (List Char) → List (List (List Char)) → List (List Char) → Prop
  | _, [], rest => rest = []
  | prev, c :: cstail, rest =>
    ∃ ovl nw rest2, c = ovl ++ nw ∧ ovl <:+ prev ∧ rest = nw ++ rest2 ∧
      Recovers c cstail rest2

theorem recovers_runFrom (cs ov : Nat) :
    ∀ (ss : List (List Char)) prev ovl nw, ovl <:+ prev →
      Recovers prev (runFrom cs ov (ovl ++ nw) ss) (nw ++ ss) := by
  intro ss
  induction ss with
  | nil =>
    intro prev ovl nw h
    rw [runFrom_nil]
    by_cases hc : (ovl ++ nw).isEmpty
    · rw [if_pos hc]
      rcases List.append_eq_nil.mp (List.isEmpty_iff.mp hc) with ⟨h1, h2⟩
      subst h1; subst h2
      simp [Recovers]
    · rw [if_neg hc]
      exact ⟨ovl, nw, [], rfl, h, by simp, by simp [Recovers]⟩
  | cons s ss ih =>
    intro prev ovl nw h
    rw [runFrom_cons]
    by_cases hc : cs < sumLen (ovl ++ nw) + s.length
    · rw [if_pos hc]
      refine ⟨ovl, nw, s :: ss, rfl, h, by simp, ?_⟩
      have hsuf : evict cs s.length (seedOf ov (ovl ++ nw)) <:+ ovl ++ nw :=
        (evict_suffix _ _ _).trans (seedOf_suffix _ _)
      have := ih (ovl ++ nw) (evict cs s.length (seedOf ov (ovl ++ nw))) [s] hsuf
      simpa using this
    · rw [if_neg hc]
      have := ih prev ovl (nw ++ [s]) h
      simpa [List.append_assoc] using this

/-! ### Helper lemmas about the chapter splitter and retrieval -/

theorem scanSplitF_no_match :
    ∀ (fuel : Nat) (l acc : List Char),
      (∀ i < l.length, matchChapterAt (l.drop i) = none) →
      scanSplitF fuel acc l = [acc.reverse ++ l] := by
  intro fuel
  induction fuel with
  | zero => intro l acc h; rfl
  | succ fuel ih =>
    intro l acc h
    match l with
    | [] => simp [scanSplitF, matchChapterAt]
    | c :: rest =>
      have h0 : matchChapterAt (c :: rest) = none := by
        have := h 0 (by simp)
        simpa using this
      have hrest : ∀ i < rest.length, matchChapterAt (rest.drop i) = none := by
        intro i hi
        have := h (i + 1) (by simpa using Nat.succ_lt_succ hi)
        simpa using this
      simp only [scanSplitF, h0]
      rw [ih rest (c :: acc) hrest]
      simp

theorem reSplitChapter_no_match (text : List Char)
    (h : ∀ i < text.length, matchChapterAt (text.drop i) = none) :
    reSplitChapter text = [text] := by
  have := scanSplitF_no_match text.length text [] h
  simpa [reSplitChapter] using this

theorem filterMap_flatMap {α β γ : Type} (f : α → Option β) (g : β → List γ)
    (l : List α) :
    (l.filterMap f).flatMap g
      = l.flatMap (fun a => match f a with | none => [] | some b => g b) := by
  induction l with
  | nil => rfl
  | cons a l ih =>
    cases hfa : f a with
    | none => simp [List.filterMap_cons, hfa, ih]
    | some b => simp [List.filterMap_cons, hfa, ih]

theorem mem_insertByLe {le : ChunkRow → ChunkRow → Bool} {a x : ChunkRow} :
    ∀ {l : List ChunkRow}, x ∈ insertByLe le a l ↔ x = a ∨ x ∈ l := by
  intro l
  induction l with
  | nil => simp [insertByLe]
  | cons b rest ih =>
    unfold insertByLe
    split
    · simp
    · simp only [List.mem_cons, ih]
      tauto

theorem mem_sortByLe {le : ChunkRow → ChunkRow → Bool} {x : ChunkRow} :
    ∀ {l : List ChunkRow}, x ∈ sortByLe le l ↔ x ∈ l := by
  intro l
  induction l with
  | nil => simp [sortByLe]
  | cons a rest ih =>
    unfold sortByLe
    rw [mem_insertByLe]
    simp [ih]

/-! ### Claim theorems -/

/-- Claim C2, counterexample: with `max_size = 10` the input
`"aaaa. bbbb."` yields a single chunk of length 11 made of two sentences of
length 5 each — the joined chunk exceeds the bound although no single
sentence does, because the size check of the code ignores the joining
spaces. -/
theorem chunk_bound_counterexample :
    smart_chunking "aaaa. bbbb.".toList 10 2 = ["aaaa. bbbb.".toList]
    ∧ chunkSentLists "aaaa. bbbb.".toList 10 2 = [["aaaa.".toList, "bbbb.".toList]]
    ∧ 10 < ("aaaa. bbbb.".toList).length
    ∧ ("aaaa.".toList).length ≤ 10 ∧ ("bbbb.".toList).length ≤ 10 := by
  decide

/-- Claim C2, amended: every chunk produced by `smart_chunking` is the
space-join of a sentence list whose total character count — excluding the
single joining spaces — is at most `max_size`, except a chunk consisting of
exactly one sentence whose own length exceeds `max_size` (so a chunk of
`k` sentences has length at most `max_size + (k - 1)`). -/
theorem chunk_bound_amended (text : List Char) (cs ov : Nat) :
    ∀ chunk ∈ smart_chunking text cs ov,
      ∃ ws, chunk = joinSp ws ∧
        (sumLen ws ≤ cs ∨ ∃ s, ws = [s] ∧ cs < s.length) := by
  intro chunk hchunk
  rw [smart_chunking_eq_map_join] at hchunk
  rcases List.mem_map.mp hchunk with ⟨ws, hws, rfl⟩
  refine ⟨ws, rfl, ?_⟩
  rw [chunkSentLists_eq_runFrom] at hws
  exact runFrom_bufOk cs ov (cleanSents text) [] (Or.inl (by simp [sumLen])) ws hws

theorem chunk_bound_amended_witness :
    "Hi. Yo.".toList ∈ smart_chunking "Hi. Yo.".toList 800 2
    ∧ ∃ ws, "Hi. Yo.".toList = joinSp ws ∧
        (sumLen ws ≤ 800 ∨ ∃ s, ws = [s] ∧ 800 < s.length) :=
  ⟨by decide,
   chunk_bound_amended "Hi. Yo.".toList 800 2 "Hi. Yo.".toList (by decide)⟩

/-- Claim C3: each chunk of `smart_chunking` splits into an overlap seed
that duplicates trailing sentences of its predecessor followed by new
sentences, and the new sentences across all chunks concatenate, in order,
to the sentence sequence of the input (its sentences stripped of
surrounding whitespace, empty tokens dropped, exactly as the code
segments them). -/
theorem sentence_reconstruction (text : List Char) (cs ov : Nat) :
    Recovers [] (chunkSentLists text cs ov) (cleanSents text)
    ∧ smart_chunking text cs ov = (chunkSentLists text cs ov).map joinSp := by
  constructor
  · rw [chunkSentLists_eq_runFrom]
    have := recovers_runFrom cs ov (cleanSents text) [] [] [] List.nil_suffix
    simpa using this
  · exact smart_chunking_eq_map_join text cs ov

/-- Claim C10: when the first non-empty sentence of the input is by itself
longer than `max_size`, the first chunk returned by `smart_chunking` is the
empty string — the initial empty buffer is closed (and joined to `""`)
before the oversized sentence starts a new buffer. -/
theorem first_oversized_empty_chunk (text : List Char) (cs ov : Nat)
    (s : List Char) (rest : List (List Char))
    (hsplit : cleanSents text = s :: rest) (hbig : cs < s.length) :
    (smart_chunking text cs ov).head? = some [] := by
  rw [smart_chunking_eq_map_join, chunkSentLists_eq_runFrom, hsplit, runFrom_cons]
  have hc : cs < sumLen ([] : List (List Char)) + s.length := by
    simpa [sumLen] using hbig
  rw [if_pos hc]
  have hj : joinSp [] = [] := rfl
  simp [hj]

theorem first_oversized_empty_chunk_witness :
    cleanSents "aaaaaaa. b.".toList = ["aaaaaaa.".toList, "b.".toList]
    ∧ 5 < ("aaaaaaa.".toList).length
    ∧ (smart_chunking "aaaaaaa. b.".toList 5 2).head? = some [] :=
  ⟨by decide, by decide,
   first_oversized_empty_chunk "aaaaaaa. b.".toList 5 2 "aaaaaaa.".toList
     ["b.".toList] (by decide) (by decide)⟩

/-- Claim C4: when the chapter-heading pattern matches nowhere in the
document, the splitter emits the whole document as a single chapter
numbered 0 — every produced chunk is tagged 0 and the chunk texts are
exactly the chunking of the entire input. -/
theorem no_heading_single_chapter_zero (text : List Char)
    (h : ∀ i < text.length, matchChapterAt (text.drop i) = none) :
    chapterSegments text = [(0, text)]
    ∧ (ingestChunks text).map Prod.fst = smart_chunking text 800 2
    ∧ ∀ p ∈ ingestChunks text, p.2 = 0 := by
  have hs : chapterSegments text = [(0, text)] := by
    simp only [chapterSegments]
    rw [reSplitChapter_no_match text h]
    simp
  refine ⟨hs, ?_, ?_⟩
  · unfold ingestChunks
    rw [hs]
    simp [Function.comp_def]
  · intro p hp
    unfold ingestChunks at hp
    rw [hs] at hp
    simp only [List.flatMap_cons, List.flatMap_nil, List.append_nil,
      List.mem_map] at hp
    rcases hp with ⟨c, hc, rfl⟩
    rfl

theorem no_heading_single_chapter_zero_witness :
    (∀ i < ("Hello? Yes.".toList).length,
      matchChapterAt (("Hello? Yes.".toList).drop i) = none)
    ∧ chapterSegments "Hello? Yes.".toList = [(0, "Hello? Yes.".toList)] :=
  ⟨by decide, (no_heading_single_chapter_zero "Hello? Yes.".toList (by decide)).1⟩

/-- Claim C5: when at least one heading is detected, a detected segment
whose stripped body is shorter than the 500-character threshold contributes
no chunks (the `flatMap` sends it to `[]`), while a segment at or above the
threshold is chunked under its parsed chapter number; consequently every
surviving chapter segment has a body of at least 500 characters. -/
theorem short_chapters_discarded (text : List Char)
    (h : 1 < (reSplitChapter text).length) :
    ingestChunks text
      = (pairUp ((reSplitChapter text).drop 1)).flatMap (fun p =>
          if (strip p.2).length < minChapterLen then []
          else (smart_chunking (strip p.2) 800 2).map
            (fun c => (c, chapNumOf (strip p.1))))
    ∧ ∀ seg ∈ chapterSegments text, minChapterLen ≤ seg.2.length := by
  have hseg : chapterSegments text
      = (pairUp ((reSplitChapter text).drop 1)).filterMap (fun p =>
          if (strip p.2).length < minChapterLen then none
          else some (chapNumOf (strip p.1), strip p.2)) := by
    simp only [chapterSegments]
    rw [if_pos h]
  constructor
  · unfold ingestChunks
    rw [hseg, filterMap_flatMap]
    congr 1
    funext p
    by_cases hc : (strip p.2).length < minChapterLen
    · simp [hc]
    · simp [hc]
  · intro seg hmem
    rw [hseg] at hmem
    rcases List.mem_filterMap.mp hmem with ⟨p, hp, hsome⟩
    by_cases hc : (strip p.2).length < minChapterLen
    · rw [if_pos hc] at hsome
      exact absurd hsome (by simp)
    · rw [if_neg hc] at hsome
      have hseg2 : seg = (chapNumOf (strip p.1), strip p.2) :=
        (Option.some.inj hsome).symm
      rw [hseg2]
      show minChapterLen ≤ (strip p.2).length
      omega

theorem short_chapters_discarded_witness :
    1 < (reSplitChapter "Chapter 1 hi".toList).length
    ∧ ∀ seg ∈ chapterSegments "Chapter 1 hi".toList,
        minChapterLen ≤ seg.2.length :=
  ⟨by decide, (short_chapters_discarded "Chapter 1 hi".toList (by decide)).2⟩

/-- Claim C6, counterexample: on the exact input of the spec's end-to-end
test, ingestion does not succeed — both chapter bodies (26 and 6
characters after stripping) are below the 500-character threshold, so no
segment survives and the result is not an `ok`. -/
theorem e2e_ingestion_counterexample :
    chapterSegments
      "Chapter 1\nAlice met Bob. Bob smiled. Chapter 2\nShort.".toList = []
    ∧ (process_and_ingest_text
        "Chapter 1\nAlice met Bob. Bob smiled. Chapter 2\nShort.".toList).isOk
        = false := by
  exact ⟨by decide, rfl⟩

/-- Claim C6, amended: ingesting the exact input
`"Chapter 1\nAlice met Bob. Bob smiled. Chapter 2\nShort."` stores
nothing — chapter 1's body is also below the 500-character minimum, both
chapters are discarded, and the pipeline fails with the no-content
`ValueError` instead of succeeding. -/
theorem e2e_ingestion_amended :
    ingestChunks
      "Chapter 1\nAlice met Bob. Bob smiled. Chapter 2\nShort.".toList = []
    ∧ process_and_ingest_text
        "Chapter 1\nAlice met Bob. Bob smiled. Chapter 2\nShort.".toList
      = Except.error "No text could be extracted or chunked from the PDF." :=
  ⟨by decide, rfl⟩

/-- Claim C9: when at least one heading is detected, the text before the
first heading is excluded from ingestion — the stored chunks depend only on
the detected (heading, body) pairs, so two documents whose splits agree
after the front matter ingest identically, and every chunk originates from
a detected pair. -/
theorem front_matter_excluded (t1 t2 : List Char)
    (h1 : 1 < (reSplitChapter t1).length)
    (h2 : 1 < (reSplitChapter t2).length)
    (heq : (reSplitChapter t1).drop 1 = (reSplitChapter t2).drop 1) :
    ingestChunks t1 = ingestChunks t2
    ∧ ∀ p ∈ ingestChunks t1, ∃ pr ∈ pairUp ((reSplitChapter t1).drop 1),
        p.1 ∈ smart_chunking (strip pr.2) 800 2
        ∧ p.2 = chapNumOf (strip pr.1) := by
  have hseg : ∀ t : List Char, 1 < (reSplitChapter t).length →
      chapterSegments t
        = (pairUp ((reSplitChapter t).drop 1)).filterMap (fun p =>
            if (strip p.2).length < minChapterLen then none
            else some (chapNumOf (strip p.1), strip p.2)) := by
    intro t ht
    simp only [chapterSegments]
    rw [if_pos ht]
  constructor
  · unfold ingestChunks
    rw [hseg t1 h1, hseg t2 h2, heq]
  · intro p hp
    unfold ingestChunks at hp
    rcases List.mem_flatMap.mp hp with ⟨seg, hsegmem, hpmem⟩
    rw [hseg t1 h1] at hsegmem
    rcases List.mem_filterMap.mp hsegmem with ⟨pr, hpr, hsome⟩
    by_cases hc : (strip pr.2).length < minChapterLen
    · rw [if_pos hc] at hsome
      exact absurd hsome (by simp)
    · rw [if_neg hc] at hsome
      have hseg2 : seg = (chapNumOf (strip pr.1), strip pr.2) :=
        (Option.some.inj hsome).symm
      subst hseg2
      rcases List.mem_map.mp hpmem with ⟨c, hc2, rfl⟩
      exact ⟨pr, hpr, hc2, rfl⟩

theorem front_matter_excluded_witness :
    1 < (reSplitChapter "AB. Chapter 1 x".toList).length
    ∧ 1 < (reSplitChapter "CDEF! Chapter 1 x".toList).length
    ∧ (reSplitChapter "AB. Chapter 1 x".toList).drop 1
        = (reSplitChapter "CDEF! Chapter 1 x".toList).drop 1
    ∧ ingestChunks "AB. Chapter 1 x".toList
        = ingestChunks "CDEF! Chapter 1 x".toList :=
  ⟨by decide, by decide, by decide,
   (front_matter_excluded "AB. Chapter 1 x".toList "CDEF! Chapter 1 x".toList
     (by decide) (by decide) (by decide)).1⟩

/-- Claim C1: with a chapter ceiling `C` present, every result returned by
`semantic_search` comes from a stored row of the queried book with
`chapter_num ≤ C`.  The ceiling acts as a hard pre-filter on the candidate
set before ordering and truncation to `top_k`, and the statement holds for
every table — in particular for every distance assignment, so a
closer-matching row above the ceiling never leaks into the output. -/
theorem spoiler_shield (table : List ChunkRow) (bid : String) (C : Int)
    (k : Nat) :
    ∀ res ∈ semantic_search table bid (some C) k,
      ∃ r, r ∈ table ∧ r.chapter_num ≤ C ∧ r.book_id = bid ∧
        res = (chapterLabel r.chapter_num, r.chunk_text, 1 - r.dist) := by
  intro res hres
  unfold semantic_search at hres
  simp only at hres
  rcases List.mem_map.mp hres with ⟨r, hr, rfl⟩
  have hr2 : r ∈ sortByLe rowLe (table.filter fun a =>
      decide (a.book_id = bid) && decide (a.chapter_num ≤ C)) :=
    List.take_subset _ _ hr
  have hf := List.mem_filter.mp (mem_sortByLe.mp hr2)
  have hcond := hf.2
  simp only [Bool.and_eq_true, decide_eq_true_eq] at hcond
  exact ⟨r, hf.1, hcond.2, hcond.1, rfl⟩

theorem spoiler_shield_witness :
    (("chapter_1", "alpha.".toList, 1 - (9 : ℚ)) : SearchResult) ∈
      semantic_search
        [⟨"b", 1, "alpha.".toList, 9⟩, ⟨"b", 5, "omega.".toList, 0⟩]
        "b" (some 2) 5
    ∧ ∃ r, r ∈ [(⟨"b", 1, "alpha.".toList, 9⟩ : ChunkRow),
                ⟨"b", 5, "omega.".toList, 0⟩] ∧
        r.chapter_num ≤ 2 ∧ r.book_id = "b" ∧
        (("chapter_1", "alpha.".toList, 1 - (9 : ℚ)) : SearchResult)
          = (chapterLabel r.chapter_num, r.chunk_text, 1 - r.dist) :=
  ⟨List.Mem.head _,
   spoiler_shield [⟨"b", 1, "alpha.".toList, 9⟩, ⟨"b", 5, "omega.".toList, 0⟩]
     "b" 2 5 ("chapter_1", "alpha.".toList, 1 - (9 : ℚ)) (List.Mem.head _)⟩

/-- Claim C7: when retrieval returns zero results, `/v1/query` succeeds and
returns the fixed fallback answer with an empty source list, for every
answer generator — the generator is never invoked — and (as the model also
records) appends no log entries. -/
theorem empty_retrieval_fallback (table : List ChunkRow) (uid bid : String)
    (q : List Char) (cl : Int) (gen : List (List Char) → List Char)
    (h : semantic_search table bid (some cl) 3 = []) :
    query_book table uid bid q cl gen = ⟨fallbackAnswer, [], []⟩ := by
  simp [query_book, h]

theorem empty_retrieval_fallback_witness :
    semantic_search [] "b" (some 1) 3 = []
    ∧ query_book [] "u" "b" "hi".toList 1 (fun cs => joinSp cs)
        = ⟨fallbackAnswer, [], []⟩ :=
  ⟨rfl, empty_retrieval_fallback [] "u" "b" "hi".toList 1 (fun cs => joinSp cs) rfl⟩

/-- Claim C8, counterexample: a query answered by the fallback path appends
zero audit log entries — the early return at line 209 of `api.py` precedes
both `log_message` calls — contradicting the claim that every completed
query, including the fallback path, appends exactly two entries. -/
theorem query_logging_counterexample :
    (query_book [] "user1" "book1" "who".toList 2 (fun cs => joinSp cs)).logs
      = [] := by
  rfl

/-- Claim C8, amended: every query whose retrieval is non-empty appends
exactly two audit entries — a `user` entry carrying the query text and a
`bot` entry carrying the produced answer, in that order, recorded after
the answer is computed; a query answered by the fallback path appends
none. -/
theorem query_logging_amended (table : List ChunkRow) (uid bid : String)
    (q : List Char) (cl : Int) (gen : List (List Char) → List Char)
    (h : semantic_search table bid (some cl) 3 ≠ []) :
    (query_book table uid bid q cl gen).logs
      = [⟨uid, bid, "user", q, cl⟩,
         ⟨uid, bid, "bot", (query_book table uid bid q cl gen).answer, cl⟩] := by
  have hne : ((semantic_search table bid (some cl) 3).map
      (fun t => t.2.1)).isEmpty = false := by
    simp [List.isEmpty_iff, h]
  simp [query_book, hne]

theorem query_logging_amended_witness :
    semantic_search [⟨"b", 1, "alpha.".toList, 0⟩] "b" (some 1) 3 ≠ []
    ∧ (query_book [⟨"b", 1, "alpha.".toList, 0⟩] "u" "b" "hi".toList 1
        (fun cs => joinSp cs)).logs
      = [⟨"u", "b", "user", "hi".toList, 1⟩,
         ⟨"u", "b", "bot",
          (query_book [⟨"b", 1, "alpha.".toList, 0⟩] "u" "b" "hi".toList 1
            (fun cs => joinSp cs)).answer, 1⟩] :=
  ⟨by decide,
   query_logging_amended [⟨"b", 1, "alpha.".toList, 0⟩] "u" "b" "hi".toList 1
     (fun cs => joinSp cs) (by decide)⟩

end BookFriend
